import Mathlib

/-!
Verification of the u-root Multiboot v1 boot-image assembly pipeline.

The Go sources are shallowly embedded: byte strings are `List Nat` (each
element a byte value), Go `uint32`/`uint64` arithmetic is `Nat` arithmetic
with explicit `% 2^32` / `% 2^64` where the source truncates, and fallible
operations return `Except`.  File I/O is abstracted by an environment
function passed explicitly.  On x86 the source's detected native endianness
is little-endian, so all encodings below are little-endian.
-/

/-- 2^32, the modulus of Go `uint32` arithmetic. -/
def U32MOD : Nat := 4294967296

/-- 2^64, the modulus of Go `uint64` arithmetic. -/
def U64MOD : Nat := 18446744073709551616

/-- Little-endian bytes of a 32-bit word (`binary.LittleEndian.PutUint32`). -/
def le32bytes (v : Nat) : List Nat :=
  [v % 256, v / 256 % 256, v / 65536 % 256, v / 16777216 % 256]

/-- Little-endian bytes of a 16-bit word. -/
def le16bytes (v : Nat) : List Nat :=
  [v % 256, v / 256 % 256]

/-- Little-endian bytes of a 64-bit word (`binary.LittleEndian.PutUint64`). -/
def le64bytes (v : Nat) : List Nat :=
  [v % 256, v / 256 % 256, v / 65536 % 256, v / 16777216 % 256,
   v / 4294967296 % 256, v / 1099511627776 % 256,
   v / 281474976710656 % 256, v / 72057594037927936 % 256]

/-- Read a little-endian 32-bit word from byte position `i` of a byte list
(out-of-range bytes read as zero). -/
def le32 (l : List Nat) (i : Nat) : Nat :=
  l.getD i 0 + 256 * l.getD (i + 1) 0 + 65536 * l.getD (i + 2) 0 +
    16777216 * l.getD (i + 3) 0

/-! ## Multiboot header parser (`header.go`) -/

/-- `Header` from `header.go`: embedded `mandatory` triple followed by the
nine `optional` words, all `uint32`. -/
structure Header where
  magic : Nat
  flags : Nat
  checksum : Nat
  headerAddr : Nat
  loadAddr : Nat
  loadEndAddr : Nat
  bssEndAddr : Nat
  entryAddr : Nat
  modeType : Nat
  width : Nat
  height : Nat
  depth : Nat
deriving DecidableEq

/-- Error outcomes of `parseHeader`: `ErrHeaderNotFound`,
`ErrFlagsNotSupported`, or a failure of the initial `io.ReadAtLeast`. -/
inductive HeaderErr where
  | headerNotFound
  | flagsNotSupported
  | readError
deriving DecidableEq

/-- `headerMagic = 0x1BADB002`. -/
def headerMagic : Nat := 0x1BADB002

/-- `flagHeaderUnsupported = 0x0000FFFC`. -/
def flagHeaderUnsupported : Nat := 0x0000FFFC

/-- `flagHeaderMemoryInfo = 0x00000002`. -/
def flagHeaderMemoryInfo : Nat := 2

/-- The 48-byte header image `binary.Read` decodes at byte offset `i` of
buffer `buf` (12 consecutive little-endian `uint32` words). -/
def readHeaderAt (buf : List Nat) (i : Nat) : Header where
  magic := le32 buf i
  flags := le32 buf (i + 4)
  checksum := le32 buf (i + 8)
  headerAddr := le32 buf (i + 12)
  loadAddr := le32 buf (i + 16)
  loadEndAddr := le32 buf (i + 20)
  bssEndAddr := le32 buf (i + 24)
  entryAddr := le32 buf (i + 28)
  modeType := le32 buf (i + 32)
  width := le32 buf (i + 36)
  height := le32 buf (i + 40)
  depth := le32 buf (i + 44)

/-- The acceptance test of the scan loop: `hdr.Magic == headerMagic &&
hdr.Magic+hdr.Flags+hdr.Checksum == 0` in `uint32` arithmetic. -/
def acceptsAt (buf : List Nat) (i : Nat) : Bool :=
  (le32 buf i == headerMagic) &&
    ((le32 buf i + le32 buf (i + 4) + le32 buf (i + 8)) % U32MOD == 0)

/-- The scan loop of `parseHeader`: `c` candidates remain, the current one
at byte offset `i`; each failed candidate advances the offset by 4. -/
def scanHeader (buf : List Nat) : Nat → Nat → Except HeaderErr Header
  | 0, _ => .error .headerNotFound
  | c + 1, i =>
    if acceptsAt buf i then
      if (readHeaderAt buf i).flags &&& flagHeaderUnsupported = 0 then
        .ok (readHeaderAt buf i)
      else
        .error .flagsNotSupported
    else
      scanHeader buf c (i + 4)

/-- The scanned buffer: at most the first 8192 input bytes, then 36 zero
bytes (`sizeof(optional)`) so a candidate near the boundary can be decoded. -/
def paddedBuf (input : List Nat) : List Nat :=
  input.take 8192 ++ List.replicate 36 0

/-- `parseHeader`: fail unless 12 bytes (`sizeof(mandatory)`) can be read;
otherwise scan 4-byte-aligned candidates of the padded buffer.  The loop
runs while at least 48 bytes remain, i.e. over
`(paddedBuf.length - 48) / 4 + 1` candidates. -/
def parseHeader (input : List Nat) : Except HeaderErr Header :=
  if input.length < 12 then .error .readError
  else scanHeader (paddedBuf input) (((paddedBuf input).length - 48) / 4 + 1) 0

theorem scanHeader_hit (buf : List Nat) :
    ∀ c i q, i ≤ q → 4 ∣ (q - i) → (q - i) / 4 < c →
      acceptsAt buf q = true →
      (∀ j, i ≤ j → j < q → 4 ∣ (j - i) → acceptsAt buf j = false) →
      scanHeader buf c i =
        if (readHeaderAt buf q).flags &&& flagHeaderUnsupported = 0 then
          .ok (readHeaderAt buf q)
        else
          .error .flagsNotSupported := by
  intro c
  induction c with
  | zero => intro i q _ _ hlt _ _; omega
  | succ c ih =>
    intro i q hle hdvd hlt hacc hmin
    by_cases h : i = q
    · subst h
      simp [scanHeader, hacc]
    · have hiq : i < q := lt_of_le_of_ne hle h
      have hfalse : acceptsAt buf i = false := hmin i le_rfl hiq ⟨0, by omega⟩
      have h4 : i + 4 ≤ q := by omega
      have : scanHeader buf (c + 1) i = scanHeader buf c (i + 4) := by
        simp [scanHeader, hfalse]
      rw [this]
      exact ih (i + 4) q h4 (by omega) (by omega) hacc
        (fun j hj1 hj2 hj3 => hmin j (by omega) hj2 (by omega))

theorem scanHeader_miss (buf : List Nat) :
    ∀ c i, (∀ k, k < c → acceptsAt buf (i + 4 * k) = false) →
      scanHeader buf c i = .error .headerNotFound := by
  intro c
  induction c with
  | zero => intro i _; rfl
  | succ c ih =>
    intro i h
    have h0 : acceptsAt buf i = false := by
      have := h 0 (by omega)
      simpa using this
    have : scanHeader buf (c + 1) i = scanHeader buf c (i + 4) := by
      simp [scanHeader, h0]
    rw [this]
    exact ih (i + 4) (fun k hk => by
      have := h (k + 1) (by omega)
      have heq : i + 4 * (k + 1) = i + 4 + 4 * k := by omega
      rwa [heq] at this)

theorem paddedBuf_getD (input : List Nat) (j : Nat)
    (hj : j < input.length) (hj2 : j < 8192) :
    (paddedBuf input).getD j 0 = input.getD j 0 := by
  unfold paddedBuf
  have hlen : j < (input.take 8192).length := by
    simp [List.length_take]; omega
  rw [List.getD_append _ _ _ _ hlen]
  simp [List.getD, List.getElem?_take, hj2]

theorem paddedBuf_length (input : List Nat) :
    (paddedBuf input).length = min input.length 8192 + 36 := by
  simp [paddedBuf]
  omega

theorem le32_padded (input : List Nat) (j : Nat)
    (hj : j + 4 ≤ min input.length 8192) :
    le32 (paddedBuf input) j = le32 input j := by
  unfold le32
  rw [paddedBuf_getD input j (by omega) (by omega),
      paddedBuf_getD input (j + 1) (by omega) (by omega),
      paddedBuf_getD input (j + 2) (by omega) (by omega),
      paddedBuf_getD input (j + 3) (by omega) (by omega)]

theorem acceptsAt_padded (input : List Nat) (q : Nat)
    (h : q + 12 ≤ min input.length 8192) :
    acceptsAt (paddedBuf input) q = acceptsAt input q := by
  unfold acceptsAt
  rw [le32_padded input q (by omega), le32_padded input (q + 4) (by omega),
      le32_padded input (q + 8) (by omega)]

/-- C1 (amended): if the input contains an accepted candidate at a
4-byte-aligned offset `q ≤ 8192 - 44` and every earlier aligned candidate is
rejected, `parseHeader` returns the header decoded at `q` (or the
unsupported-flags error when `flags AND 0x0000FFFC ≠ 0`); and an input of at
least 12 bytes in which every aligned candidate of the first 8192 bytes is
rejected yields the header-not-found error.  (Inputs shorter than 12 bytes
yield a read error instead — see the counterexample.) -/
theorem parseHeader_scan_spec (input : List Nat) :
    (∀ q, q ≤ 8148 → q % 4 = 0 → q + 12 ≤ input.length →
      acceptsAt input q = true →
      (∀ q' < q, q' % 4 = 0 → acceptsAt input q' = false) →
      parseHeader input =
        if (readHeaderAt input q).flags &&& flagHeaderUnsupported = 0 then
          .ok (readHeaderAt (paddedBuf input) q)
        else
          .error .flagsNotSupported) ∧
    (12 ≤ input.length →
      (∀ q < input.length, q % 4 = 0 → q + 12 ≤ min input.length 8192 →
        acceptsAt input q = false) →
      parseHeader input = .error .headerNotFound) := by
  constructor
  · intro q hq hmod hlen hacc hmin
    have hq12 : q + 12 ≤ min input.length 8192 := by omega
    unfold parseHeader
    rw [if_neg (by omega)]
    have hflags : (readHeaderAt (paddedBuf input) q).flags =
        (readHeaderAt input q).flags := by
      simp only [readHeaderAt]
      exact le32_padded input (q + 4) (by omega)
    rw [scanHeader_hit (paddedBuf input)
        (((paddedBuf input).length - 48) / 4 + 1) 0 q (Nat.zero_le q)
        (by omega)
        (by rw [paddedBuf_length]; omega)
        (by rw [acceptsAt_padded input q hq12]; exact hacc)
        (fun j _ hj2 hj3 => by
          rw [acceptsAt_padded input j (by omega)]
          exact hmin j hj2 (by omega)), hflags]
  · intro hlen hnone
    unfold parseHeader
    rw [if_neg (by omega)]
    apply scanHeader_miss
    intro k hk
    rw [paddedBuf_length] at hk
    have h4k : 4 * k + 12 ≤ min input.length 8192 := by omega
    have : (0 : Nat) + 4 * k = 4 * k := by omega
    rw [this, acceptsAt_padded input (4 * k) h4k]
    exact hnone (4 * k) (by omega) (by omega) h4k

/-- A 28-byte input: 16 garbage (zero) bytes, then a valid mandatory header
triple `(0x1BADB002, 0, 0xE4524FFE)` in little-endian bytes. -/
def hdrWitInput : List Nat :=
  List.replicate 16 0 ++ [2, 176, 173, 27, 0, 0, 0, 0, 254, 79, 82, 228]

theorem parseHeader_scan_spec_witness :
    parseHeader hdrWitInput = .ok (readHeaderAt (paddedBuf hdrWitInput) 16) ∧
      parseHeader (List.replicate 16 0) = .error .headerNotFound := by
  constructor
  · have h := (parseHeader_scan_spec hdrWitInput).1 16 (by decide) (by decide)
      (by decide) (by decide) (by decide)
    rwa [if_pos (by decide)] at h
  · exact (parseHeader_scan_spec (List.replicate 16 0)).2 (by decide) (by decide)

/-- C1 counterexample: the empty input has no validating aligned candidate,
yet `parseHeader` reports the read error, not the header-not-found error the
claim requires for every such input. -/
theorem parseHeader_empty_cex :
    parseHeader ([] : List Nat) = .error .readError ∧
      parseHeader ([] : List Nat) ≠ .error .headerNotFound := by
  refine ⟨rfl, ?_⟩
  intro h
  rw [show parseHeader ([] : List Nat) = .error .readError from rfl] at h
  simp at h

/-! ## Multiboot info structure (`info.go`) -/

/-- `Info` from `info.go`: the Multiboot v1 information structure exactly as
declared in the source, including the source's (buggy) `uint16` types for
`FramebufferAddr` and `FramebufferPitch` and the `DrivesrAddr` typo. -/
structure Info where
  flags : Nat
  memLower : Nat
  memUpper : Nat
  bootDevice : Nat
  cmdLine : Nat
  modsCount : Nat
  modsAddr : Nat
  syms : List Nat
  mmapLength : Nat
  mmapAddr : Nat
  driversLength : Nat
  drivesrAddr : Nat
  configTable : Nat
  bootLoaderName : Nat
  apmTable : Nat
  vbeControlInfo : Nat
  vbeModeInfo : Nat
  vbeMode : Nat
  vbeInterfaceSeg : Nat
  vbeInterfaceOff : Nat
  vbeInterfaceLen : Nat
  framebufferAddr : Nat
  framebufferPitch : Nat
  framebufferWidth : Nat
  framebufferHeight : Nat
  framebufferBPP : Nat
  framebufferType : Nat
  colorInfo : List Nat
deriving DecidableEq

/-- `Info{}`: the zero value. -/
def zeroInfo : Info :=
  ⟨0, 0, 0, 0, 0, 0, 0, [0, 0, 0, 0], 0, 0, 0, 0, 0, 0, 0, 0, 0, 0, 0, 0, 0,
   0, 0, 0, 0, 0, 0, [0, 0, 0, 0, 0, 0]⟩

/-- `binary.Write(&buf, nativeEndian, iw.Info)`: the packed little-endian
encoding of `Info`, field by field in declaration order.  `Syms` is a
4-element `uint32` array and `ColorInfo` a 6-element byte array;
`FramebufferAddr` and `FramebufferPitch` are encoded as the 16-bit fields
the source declares them to be. -/
def encodeInfo (i : Info) : List Nat :=
  le32bytes i.flags ++ le32bytes i.memLower ++ le32bytes i.memUpper ++
  le32bytes i.bootDevice ++ le32bytes i.cmdLine ++ le32bytes i.modsCount ++
  le32bytes i.modsAddr ++ le32bytes (i.syms.getD 0 0) ++
  le32bytes (i.syms.getD 1 0) ++ le32bytes (i.syms.getD 2 0) ++
  le32bytes (i.syms.getD 3 0) ++ le32bytes i.mmapLength ++
  le32bytes i.mmapAddr ++ le32bytes i.driversLength ++
  le32bytes i.drivesrAddr ++ le32bytes i.configTable ++
  le32bytes i.bootLoaderName ++ le32bytes i.apmTable ++
  le32bytes i.vbeControlInfo ++ le32bytes i.vbeModeInfo ++
  le16bytes i.vbeMode ++ le16bytes i.vbeInterfaceSeg ++
  le16bytes i.vbeInterfaceOff ++ le16bytes i.vbeInterfaceLen ++
  le16bytes i.framebufferAddr ++ le16bytes i.framebufferPitch ++
  le32bytes i.framebufferWidth ++ le32bytes i.framebufferHeight ++
  [i.framebufferBPP % 256, i.framebufferType % 256] ++
  ((List.range 6).map fun k => i.colorInfo.getD k 0 % 256)

/-- `sizeofInfo = uint32(binary.Size(Info{}))`. -/
def sizeofInfo : Nat := (encodeInfo zeroInfo).length

theorem sizeofInfo_eq : sizeofInfo = 108 := rfl

theorem encodeInfo_length (i : Info) : (encodeInfo i).length = 108 := by
  simp [encodeInfo, le32bytes, le16bytes]

/-- `flagInfoCmdLine = 1 << 2`. -/
def flagInfoCmdLine : Nat := 4

/-- `flagInfoBootLoaderName = 1 << 9`. -/
def flagInfoBootLoaderName : Nat := 512

/-- `flagInfoMemory = 1 << 0`. -/
def flagInfoMemory : Nat := 1

/-- `flagInfoMods = 1 << 3`. -/
def flagInfoMods : Nat := 8

/-- `flagInfoMemMap = 1 << 6`. -/
def flagInfoMemMap : Nat := 64

/-- `infoWrapper`: the info structure plus the command-line and
bootloader-name strings (as byte lists). -/
structure InfoWrapper where
  info : Info
  cmdLine : List Nat
  bootLoaderName : List Nat

/-- The pointer fixups at the head of `infoWrapper.marshal`:
`offset := sizeofInfo + uint32(base); iw.Info.CmdLine = offset;
offset += uint32(len(iw.CmdLine)) + 1; iw.Info.BootLoaderName = offset`,
in `uint32` arithmetic. -/
def resolveInfo (iw : InfoWrapper) (base : Nat) : Info :=
  { iw.info with
    cmdLine := (sizeofInfo + base % U32MOD) % U32MOD,
    bootLoaderName :=
      ((sizeofInfo + base % U32MOD) % U32MOD + iw.cmdLine.length % U32MOD + 1) %
        U32MOD }

/-- The bytes `infoWrapper.marshal(base)` accumulates in its buffer before
padding: the resolved info structure, then the zero-terminated command line,
then the zero-terminated bootloader name. -/
def marshalBody (iw : InfoWrapper) (base : Nat) : List Nat :=
  encodeInfo (resolveInfo iw base) ++
    (iw.cmdLine ++ ([0] ++ (iw.bootLoaderName ++ [0])))

/-- `infoWrapper.marshal(base)`: the buffer padded with zero bytes up to a
4-byte multiple (`size := (buf.Len() + 3) &^ 3`). -/
def marshalInfo (iw : InfoWrapper) (base : Nat) : List Nat :=
  marshalBody iw base ++
    List.replicate ((4 - (marshalBody iw base).length % 4) % 4) 0

/-- The tail of `newMultibootInfo`: `info.CmdLine = sizeofInfo;
info.BootLoaderName = sizeofInfo + uint32(len(m.cmdLine)) + 1;
info.Flags |= flagInfoCmdLine | flagInfoBootLoaderName`. -/
def finishInfo (info : Info) (cmdLine : List Nat) : Info :=
  { info with
    cmdLine := sizeofInfo,
    bootLoaderName := (sizeofInfo + cmdLine.length % U32MOD + 1) % U32MOD,
    flags := info.flags ||| (flagInfoCmdLine ||| flagInfoBootLoaderName) }

/-- The `infoWrapper` value `newMultibootInfo` returns. -/
def mkInfoWrapper (info : Info) (cmdLine bootName : List Nat) : InfoWrapper :=
  ⟨finishInfo info cmdLine, cmdLine, bootName⟩

/-- `bootloader = "u-root kexec"` as bytes. -/
def bootloaderBytes : List Nat :=
  [117, 45, 114, 111, 111, 116, 32, 107, 101, 120, 101, 99]

/-- C2: marshalling the info block built by `newMultibootInfo` at base `A`
sets `CmdLine = A + sizeof(Info)` and
`BootLoaderName = A + sizeof(Info) + len(cmdline) + 1`, sets the
`flagInfoCmdLine` (bit 2) and `flagInfoBootLoaderName` (bit 9) flags, and
the marshalled bytes hold the zero-terminated command line at offset
`CmdLine - A` and the zero-terminated bootloader name at offset
`BootLoaderName - A` (for pointers representable in 32 bits). -/
theorem infoMarshal_roundtrip (info : Info) (c b : List Nat) (A : Nat)
    (hA : A + sizeofInfo + c.length + 1 < U32MOD) :
    (resolveInfo (mkInfoWrapper info c b) A).cmdLine = A + sizeofInfo ∧
    (resolveInfo (mkInfoWrapper info c b) A).bootLoaderName =
      A + sizeofInfo + c.length + 1 ∧
    (resolveInfo (mkInfoWrapper info c b) A).flags.testBit 2 = true ∧
    (resolveInfo (mkInfoWrapper info c b) A).flags.testBit 9 = true ∧
    ((marshalInfo (mkInfoWrapper info c b) A).drop
        ((resolveInfo (mkInfoWrapper info c b) A).cmdLine - A)).take
      (c.length + 1) = c ++ [0] ∧
    ((marshalInfo (mkInfoWrapper info c b) A).drop
        ((resolveInfo (mkInfoWrapper info c b) A).bootLoaderName - A)).take
      (b.length + 1) = b ++ [0] := by
  have hA' : A + 108 + c.length + 1 < 4294967296 := by
    rw [sizeofInfo_eq] at hA
    exact hA
  have hcl : (resolveInfo (mkInfoWrapper info c b) A).cmdLine = A + sizeofInfo := by
    simp only [resolveInfo, mkInfoWrapper, sizeofInfo_eq, U32MOD]
    omega
  have hbl : (resolveInfo (mkInfoWrapper info c b) A).bootLoaderName =
      A + sizeofInfo + c.length + 1 := by
    simp only [resolveInfo, mkInfoWrapper, sizeofInfo_eq, U32MOD]
    omega
  have hsplit : marshalInfo (mkInfoWrapper info c b) A =
      encodeInfo (resolveInfo (mkInfoWrapper info c b) A) ++
        ((c ++ [0]) ++ ((b ++ [0]) ++
          List.replicate
            ((4 - (marshalBody (mkInfoWrapper info c b) A).length % 4) % 4)
            0)) := by
    have h1 : marshalInfo (mkInfoWrapper info c b) A =
        (encodeInfo (resolveInfo (mkInfoWrapper info c b) A) ++
          (c ++ ([0] ++ (b ++ [0])))) ++
          List.replicate
            ((4 - (marshalBody (mkInfoWrapper info c b) A).length % 4) % 4)
            0 := rfl
    rw [h1]
    simp [List.append_assoc]
  refine ⟨hcl, hbl, ?_, ?_, ?_, ?_⟩
  · simp only [resolveInfo, mkInfoWrapper, finishInfo, flagInfoCmdLine,
      flagInfoBootLoaderName, Nat.testBit_or]
    simp
    exact Or.inr (Or.inl (by decide))
  · simp only [resolveInfo, mkInfoWrapper, finishInfo, flagInfoCmdLine,
      flagInfoBootLoaderName, Nat.testBit_or]
    simp
    exact Or.inr (Or.inr (by decide))
  · rw [hcl, show A + sizeofInfo - A = 108 by rw [sizeofInfo_eq]; omega,
        hsplit,
        show (108 : Nat) =
          (encodeInfo (resolveInfo (mkInfoWrapper info c b) A)).length from
          (encodeInfo_length _).symm,
        List.drop_left, List.take_left' (by simp)]
  · rw [hbl, show A + sizeofInfo + c.length + 1 - A = 108 + (c.length + 1) by
        rw [sizeofInfo_eq]; omega]
    rw [← List.drop_drop, hsplit,
        show (108 : Nat) =
          (encodeInfo (resolveInfo (mkInfoWrapper info c b) A)).length from
          (encodeInfo_length _).symm,
        List.drop_left, List.drop_left' (by simp),
        List.take_left' (by simp)]

theorem infoMarshal_roundtrip_witness :
    (resolveInfo (mkInfoWrapper zeroInfo [104, 105] [33]) 4096).cmdLine =
      4204 ∧
    ((marshalInfo (mkInfoWrapper zeroInfo [104, 105] [33]) 4096).drop
        ((resolveInfo (mkInfoWrapper zeroInfo [104, 105] [33]) 4096).cmdLine -
          4096)).take 3 = [104, 105, 0] := by
  have h := infoMarshal_roundtrip zeroInfo [104, 105] [33] 4096 (by decide)
  exact ⟨by rw [h.1]; rfl, h.2.2.2.2.1⟩

/-- C3: the fixed-size marshalled prefix of the info block is 108 bytes,
not the 116 bytes of the Multiboot v1 format the source cites
(`FramebufferAddr`/`FramebufferPitch` are declared `uint16` instead of
`uint64`/`uint32`); hence for base 0 the `CmdLine` field is 108. -/
theorem sizeofInfo_not_116 :
    sizeofInfo = 108 ∧ sizeofInfo ≠ 116 ∧
      (resolveInfo (mkInfoWrapper zeroInfo [] []) 0).cmdLine = 108 := by
  exact ⟨rfl, by decide, rfl⟩

/-! ## Trampoline patcher (`trampoline.go`) -/

/-- Errors of `setupTrampoline`'s `replace` helper: label not found, or the
blob too short for the patch (`io.ErrUnexpectedEOF`). -/
inductive TrampErr where
  | labelNotFound
  | truncated
deriving DecidableEq

/-- `TrampolineEBX = "u-root-ebx-long"` as bytes. -/
def trampolineEBX : List Nat :=
  [117, 45, 114, 111, 111, 116, 45, 101, 98, 120, 45, 108, 111, 110, 103]

/-- `TrampolineEP = "u-root-ep-quad"` as bytes. -/
def trampolineEP : List Nat :=
  [117, 45, 114, 111, 111, 116, 45, 101, 112, 45, 113, 117, 97, 100]

/-- `pat` begins the byte list `d`. -/
def leadsWith : List Nat → List Nat → Bool
  | [], _ => true
  | _ :: _, [] => false
  | p :: ps, x :: xs => (p == x) && leadsWith ps xs

/-- `bytes.Index(d, pat)`: position of the first occurrence of `pat` in
`d`, if any. -/
def findSub (pat : List Nat) : List Nat → Option Nat
  | [] => if leadsWith pat [] then some 0 else none
  | x :: xs =>
    if leadsWith pat (x :: xs) then some 0
    else (findSub pat xs).map (· + 1)

/-- `copy(d[p:], bs)` on a Go slice: overwrite at most `len(d) - p` bytes of
`d` starting at `p` with `bs`; the list length never changes. -/
def writeAt (d : List Nat) (p : Nat) (bs : List Nat) : List Nat :=
  d.take p ++ bs.take (d.length - p) ++ d.drop (p + bs.length)

/-- The `replace` closure of `setupTrampoline`: find the label, check the
patch fits, overwrite the bytes immediately after the label. -/
def replaceAfter (d label bs : List Nat) : Except TrampErr (List Nat) :=
  match findSub label d with
  | none => .error .labelNotFound
  | some ind =>
    if d.length < ind + label.length + bs.length then .error .truncated
    else .ok (writeAt d (ind + label.length) bs)

/-- `setupTrampoline` on an already-read blob `d`: patch the 4 bytes after
the first `"u-root-ebx-long"` with the info address (little-endian 32-bit),
then patch the 8 bytes after the first `"u-root-ep-quad"` of the
*already-patched* blob with the entry point (little-endian 64-bit). -/
def setupTrampoline (d : List Nat) (infoAddr entryPoint : Nat) :
    Except TrampErr (List Nat) :=
  match replaceAfter d trampolineEBX (le32bytes infoAddr) with
  | .error e => .error e
  | .ok d1 =>
    match replaceAfter d1 trampolineEP (le64bytes entryPoint) with
    | .error e => .error e
    | .ok d2 => .ok d2

theorem writeAt_length (d : List Nat) (p : Nat) (bs : List Nat) :
    (writeAt d p bs).length = d.length := by
  simp [writeAt]
  omega

theorem writeAt_getD_of_lt (d : List Nat) (p : Nat) (bs : List Nat) (k : Nat)
    (hk : k < p) (hkd : k < d.length) :
    (writeAt d p bs).getD k 0 = d.getD k 0 := by
  unfold writeAt
  rw [List.getD_append _ _ _ _ (by simp [List.length_take]; omega)]
  rw [List.getD_append _ _ _ _ (by simp [List.length_take]; omega)]
  simp [List.getD, List.getElem?_take, hk]

theorem writeAt_getD_mid (d : List Nat) (p : Nat) (bs : List Nat) (t : Nat)
    (ht : t < bs.length) (hb : p + bs.length ≤ d.length) :
    (writeAt d p bs).getD (p + t) 0 = bs.getD t 0 := by
  unfold writeAt
  rw [List.getD_append _ _ _ _ (by simp [List.length_take]; omega)]
  rw [List.getD_append_right _ _ _ _ (by simp [List.length_take])]
  have h1 : p + t - (d.take p).length = t := by
    simp [List.length_take]; omega
  rw [h1]
  have ht2 : t < d.length - p := by omega
  simp [List.getD, List.getElem?_take, ht2]

theorem writeAt_getD_of_ge (d : List Nat) (p : Nat) (bs : List Nat) (k : Nat)
    (hk : p + bs.length ≤ k) (hkd : k < d.length) :
    (writeAt d p bs).getD k 0 = d.getD k 0 := by
  unfold writeAt
  rw [List.getD_append_right _ _ _ _ (by simp [List.length_take]; omega)]
  have h1 : k - (d.take p ++ bs.take (d.length - p)).length =
      k - (p + bs.length) := by
    simp [List.length_take]; omega
  rw [h1]
  simp only [List.getD_eq_getD_get?]
  rw [List.get?_drop]
  have h2 : p + bs.length + (k - (p + bs.length)) = k := by omega
  rw [h2]

/-- C4 (amended): on a blob containing `"u-root-ebx-long"` (first occurrence
at `i`, with 4 bytes of room), `setupTrampoline` overwrites the 4 bytes after
the label with the little-endian info address; the entry-point patch then
targets the first occurrence of `"u-root-ep-quad"` *in the already-patched
blob* (at `j`, with 8 bytes of room), overwriting the 8 bytes after it with
the little-endian entry point; every byte outside the two patch regions is
unchanged, and a missing label (at its lookup time) fails. -/
theorem setupTrampoline_patch (d : List Nat) (info ep : Nat) :
    (findSub trampolineEBX d = none →
      setupTrampoline d info ep = .error .labelNotFound) ∧
    (∀ i, findSub trampolineEBX d = some i → i + 19 ≤ d.length →
      (findSub trampolineEP (writeAt d (i + 15) (le32bytes info)) = none →
        setupTrampoline d info ep = .error .labelNotFound) ∧
      (∀ j, findSub trampolineEP (writeAt d (i + 15) (le32bytes info)) =
          some j → j + 22 ≤ d.length →
        ∃ out, setupTrampoline d info ep = .ok out ∧
          out.length = d.length ∧
          (∀ k, k < d.length → (k < i + 15 ∨ i + 19 ≤ k) →
            (k < j + 14 ∨ j + 22 ≤ k) → out.getD k 0 = d.getD k 0) ∧
          (∀ t, t < 8 →
            out.getD (j + 14 + t) 0 = (le64bytes ep).getD t 0) ∧
          (∀ t, t < 4 → (i + 15 + t < j + 14 ∨ j + 22 ≤ i + 15 + t) →
            out.getD (i + 15 + t) 0 = (le32bytes info).getD t 0))) := by
  have hebxlen : trampolineEBX.length = 15 := rfl
  have heplen : trampolineEP.length = 14 := rfl
  have h32len : (le32bytes info).length = 4 := rfl
  have h64len : (le64bytes ep).length = 8 := rfl
  constructor
  · intro hnone
    simp [setupTrampoline, replaceAfter, hnone]
  · intro i hfound hroom
    have hd1 : replaceAfter d trampolineEBX (le32bytes info) =
        .ok (writeAt d (i + 15) (le32bytes info)) := by
      simp only [replaceAfter, hfound, hebxlen, h32len]
      rw [if_neg (by omega)]
    constructor
    · intro hnone
      simp only [setupTrampoline, hd1]
      simp only [replaceAfter, hnone]
    · intro j hepfound hroom2
      have hlen1 : (writeAt d (i + 15) (le32bytes info)).length = d.length :=
        writeAt_length _ _ _
      have hd2 : replaceAfter (writeAt d (i + 15) (le32bytes info))
          trampolineEP (le64bytes ep) =
          .ok (writeAt (writeAt d (i + 15) (le32bytes info)) (j + 14)
            (le64bytes ep)) := by
        simp only [replaceAfter, hepfound, heplen, h64len, hlen1]
        rw [if_neg (by omega)]
      refine ⟨writeAt (writeAt d (i + 15) (le32bytes info)) (j + 14)
        (le64bytes ep), ?_, ?_, ?_, ?_, ?_⟩
      · simp only [setupTrampoline, hd1, hd2]
      · rw [writeAt_length, writeAt_length]
      · intro k hkd hk1 hk2
        have step2 : (writeAt (writeAt d (i + 15) (le32bytes info)) (j + 14)
            (le64bytes ep)).getD k 0 =
            (writeAt d (i + 15) (le32bytes info)).getD k 0 := by
          rcases hk2 with h | h
          · exact writeAt_getD_of_lt _ _ _ _ h (by omega)
          · exact writeAt_getD_of_ge _ _ _ _ (by rw [h64len]; omega)
              (by omega)
        rw [step2]
        rcases hk1 with h | h
        · exact writeAt_getD_of_lt _ _ _ _ h hkd
        · exact writeAt_getD_of_ge _ _ _ _ (by rw [h32len]; omega) hkd
      · intro t ht
        exact writeAt_getD_mid _ _ _ _ (by rw [h64len]; omega)
          (by rw [h64len, hlen1]; omega)
      · intro t ht hdisj
        have step2 : (writeAt (writeAt d (i + 15) (le32bytes info)) (j + 14)
            (le64bytes ep)).getD (i + 15 + t) 0 =
            (writeAt d (i + 15) (le32bytes info)).getD (i + 15 + t) 0 := by
          rcases hdisj with h | h
          · exact writeAt_getD_of_lt _ _ _ _ h (by omega)
          · exact writeAt_getD_of_ge _ _ _ _ (by rw [h64len]; omega)
              (by omega)
        rw [step2]
        exact writeAt_getD_mid _ _ _ _ (by rw [h32len]; omega)
          (by rw [h32len]; omega)

/-- The adversarial blob for the C4 counterexample: the ebx label directly
followed by the ep label and its 8-byte field. -/
def cexBlob : List Nat := trampolineEBX ++ (trampolineEP ++ List.replicate 8 0)

/-- C4 counterexample: `cexBlob` contains both labels with enough room
(ebx at 0 with 22 bytes following, ep at 15 with 8 bytes following), yet
`setupTrampoline` fails: patching the 4 bytes after the ebx label destroys
the only `"u-root-ep-quad"` occurrence. -/
theorem setupTrampoline_cex :
    findSub trampolineEBX cexBlob = some 0 ∧
      findSub trampolineEP cexBlob = some 15 ∧
      cexBlob.length = 37 ∧
      setupTrampoline cexBlob 286331153 0 = .error .labelNotFound :=
  ⟨rfl, rfl, rfl, rfl⟩

/-- A well-formed trampoline blob: ebx label, 4-byte field, ep label,
8-byte field. -/
def witBlob : List Nat :=
  trampolineEBX ++ (List.replicate 4 0 ++ (trampolineEP ++ List.replicate 8 0))

theorem setupTrampoline_patch_witness :
    ∃ out, setupTrampoline witBlob 3735928559 1311768467294899695 = .ok out ∧
      out.length = witBlob.length ∧ out.getD 15 0 = 239 ∧
      out.getD 33 0 = 239 := by
  have h := ((setupTrampoline_patch witBlob 3735928559
      1311768467294899695).2 0 rfl (by decide)).2 19 rfl (by decide)
  obtain ⟨out, h1, h2, _, hep, hinfo⟩ := h
  refine ⟨out, h1, h2, ?_, ?_⟩
  · have := hinfo 0 (by decide) (by decide)
    simpa using this
  · have := hep 0 (by decide)
    simpa using this

/-! ## Module loader (`module.go`) -/

/-- Error outcomes of module loading: the `errEmptyModule` sentinel, a file
that cannot be read (`readModule` failure), and the runtime index panic of
`args[0]` on an empty token list. -/
inductive ModErr where
  | emptyModule
  | readFailed
  | indexPanic
deriving DecidableEq

/-- `unicode.IsSpace` on the code points Go treats as white space. -/
def goIsSpace (c : Char) : Bool :=
  [9, 10, 11, 12, 13, 32, 133, 160, 5760, 8192, 8193, 8194, 8195, 8196,
   8197, 8198, 8199, 8200, 8201, 8202, 8232, 8233, 8239, 8287,
   12288].contains c.toNat

/-- Accumulator-based splitter behind `goFields` (`cur` holds the current
token reversed). -/
def fieldsAux (cur : List Char) : List Char → List (List Char)
  | [] => if cur.isEmpty then [] else [cur.reverse]
  | c :: cs =>
    if goIsSpace c then
      if cur.isEmpty then fieldsAux [] cs else cur.reverse :: fieldsAux [] cs
    else fieldsAux (c :: cur) cs

/-- `strings.Fields`: split around runs of white space. -/
def goFields (s : List Char) : List (List Char) := fieldsAux [] s

/-- `strings.Join(args, " ")`. -/
def joinSpace : List (List Char) → List Char
  | [] => []
  | [x] => x
  | x :: y :: rest => x ++ (' ' :: joinSpace (y :: rest))

/-- A Go string's bytes (ASCII code points). -/
def charsToBytes (s : List Char) : List Nat := s.map Char.toNat

/-- The lowercase `module` struct: chosen start, *inclusive* end, and the
command line (the struct field is named `end` in Go). -/
structure MBMod where
  start : Nat
  endInc : Nat
  cmdLine : List Nat
deriving DecidableEq

/-- A claimed `kexec.Segment`: physical start address plus payload bytes. -/
structure Segment where
  start : Nat
  data : List Nat
deriving DecidableEq

/-- The `kexec.Memory` state visible to the module loader: the ordered
segment list. -/
structure MemSt where
  segs : List Segment
deriving DecidableEq

/-- `mem.AddKexecSegment(data)`: allocate an address (the allocation policy
lives outside this package and is abstracted by the `alloc` oracle) and
append the new segment. -/
def addSeg (alloc : MemSt → Nat → Nat) (st : MemSt) (data : List Nat) :
    Nat × MemSt :=
  (alloc st data.length, ⟨st.segs ++ [⟨alloc st data.length, data⟩]⟩)

/-- `Multiboot.addModule(name, args...)`: read the module (the filesystem
and gzip pass-through are abstracted by `fs`, `none` meaning a read
failure), reject empty data with the `errEmptyModule` sentinel, install the
segment, and record `start = uint32(addr)` and
`end = uint32(addr) + uint32(len(data)) - 1` in `uint32` arithmetic. -/
def addModule (fs : List Char → Option (List Nat)) (alloc : MemSt → Nat → Nat)
    (st : MemSt) (name : List Char) (cmdLine : List Nat) :
    Except ModErr (MBMod × MemSt) :=
  match fs name with
  | none => .error .readFailed
  | some data =>
    if data.length = 0 then .error .emptyModule
    else
      .ok ({ start := (addSeg alloc st data).1 % U32MOD,
             endInc := ((addSeg alloc st data).1 % U32MOD +
               data.length % U32MOD + (U32MOD - 1)) % U32MOD,
             cmdLine := cmdLine },
           (addSeg alloc st data).2)

/-- The loop of `Multiboot.addModules`: split each spec with
`strings.Fields`, read `args[0]` (which panics when there is no token —
modelled as the `indexPanic` error), skip `errEmptyModule`, propagate other
errors, accumulate the rest. -/
def addModulesLoop (fs : List Char → Option (List Nat))
    (alloc : MemSt → Nat → Nat) :
    MemSt → List MBMod → List (List Char) →
      Except ModErr (List MBMod × MemSt)
  | st, acc, [] => .ok (acc, st)
  | st, acc, spec :: rest =>
    match goFields spec with
    | [] => .error .indexPanic
    | name :: args =>
      match addModule fs alloc st name (charsToBytes (joinSpace args)) with
      | .error .emptyModule => addModulesLoop fs alloc st acc rest
      | .error e => .error e
      | .ok (mod, st') => addModulesLoop fs alloc st' (acc ++ [mod]) rest

/-- The accumulator loop of `modules.marshal(base)`: `cmd` is the
command-line string buffer, `dat` the descriptor array; each descriptor is
`(start, end, base + cmd offset, 0)` as little-endian `uint32` words. -/
def marshalModsAux (base : Nat) :
    List MBMod → List Nat → List Nat → List Nat × List Nat
  | [], cmd, dat => (cmd, dat)
  | mod :: rest, cmd, dat =>
    marshalModsAux base rest (cmd ++ (mod.cmdLine ++ [0]))
      (dat ++ (le32bytes mod.start ++ (le32bytes mod.endInc ++
        (le32bytes ((base % U32MOD + cmd.length % U32MOD) % U32MOD) ++
          le32bytes 0))))

/-- `modules.marshal(base)`: the command-line strings followed by the
descriptor array. -/
def marshalMods (mods : List MBMod) (base : Nat) : List Nat :=
  (marshalModsAux base mods [] []).1 ++ (marshalModsAux base mods [] []).2

/-- The tail of `Multiboot.addModules`: size the table at base 0, reserve
(`FindSpace` abstracted by the `find` oracle), re-marshal at the reserved
address, and install it. -/
def addModules (fs : List Char → Option (List Nat))
    (alloc find : MemSt → Nat → Nat) (st : MemSt)
    (specs : List (List Char)) : Except ModErr (Nat × MemSt) :=
  match addModulesLoop fs alloc st [] specs with
  | .error e => .error e
  | .ok (mods, st1) =>
    .ok (addSeg alloc st1
      (marshalMods mods (find st1 (marshalMods mods 0).length)))


/-- The module clause of `newMultibootInfo`: when any module specs exist,
set `flagInfoMods`, `ModsAddr = uint32(modAddr)` and
`ModsCount = uint32(len(m.modules))`. -/
def setModsInfo (info : Info) (specs : List (List Char)) (modAddr : Nat) :
    Info :=
  if 0 < specs.length then
    { info with
      flags := info.flags ||| flagInfoMods,
      modsAddr := modAddr % U32MOD,
      modsCount := specs.length % U32MOD }
  else info

/-- C5: for a non-empty module of `n` bytes placed at address `s` (with
`s + n` representable in 32 bits), `addModule` records `start = s` and the
inclusive `end = s + n - 1`, installs the segment `[s, s + n) = [s, end+1)`,
and the marshalled descriptor carries exactly those two words. -/
theorem addModule_end_inclusive (fs : List Char → Option (List Nat))
    (alloc : MemSt → Nat → Nat) (st : MemSt) (name : List Char)
    (cl data : List Nat) (hfs : fs name = some data)
    (hne : data.length ≠ 0)
    (hb : alloc st data.length + data.length ≤ U32MOD) :
    addModule fs alloc st name cl =
      .ok (⟨alloc st data.length, alloc st data.length + data.length - 1,
          cl⟩,
        ⟨st.segs ++ [⟨alloc st data.length, data⟩]⟩) ∧
    alloc st data.length + data.length - 1 + 1 =
      alloc st data.length + data.length ∧
    (∀ b, (alloc st data.length ≤ b ∧
        b < alloc st data.length + data.length) ↔
      (alloc st data.length ≤ b ∧
        b < alloc st data.length + data.length - 1 + 1)) ∧
    ∀ base, ((marshalMods [⟨alloc st data.length,
        alloc st data.length + data.length - 1, cl⟩]
          base).drop (cl.length + 1)).take 8 =
      le32bytes (alloc st data.length) ++
        le32bytes (alloc st data.length + data.length - 1) := by
  have hb' : alloc st data.length + data.length ≤ 4294967296 := hb
  refine ⟨?_, by omega, fun b => by omega, ?_⟩
  · simp only [addModule, hfs, addSeg]
    rw [if_neg hne]
    rw [show (alloc st data.length % U32MOD + data.length % U32MOD +
        (U32MOD - 1)) % U32MOD = alloc st data.length + data.length - 1 by
      simp only [U32MOD]; omega]
    rw [show alloc st data.length % U32MOD = alloc st data.length by
      simp only [U32MOD]; omega]
  · intro base
    simp only [marshalMods, marshalModsAux, List.nil_append]
    rw [List.drop_left' (by simp), ← List.append_assoc,
      List.take_left' (by simp [le32bytes])]

theorem addModule_end_inclusive_witness :
    addModule (fun n => if n = ['m'] then some [7, 8, 9] else none)
      (fun _ _ => 4096) ⟨[]⟩ ['m'] [] =
      .ok (⟨4096, 4098, []⟩, ⟨[⟨4096, [7, 8, 9]⟩]⟩) := by
  have h := addModule_end_inclusive
    (fun n => if n = ['m'] then some [7, 8, 9] else none)
    (fun _ _ => 4096) ⟨[]⟩ ['m'] [] [7, 8, 9] (by decide) (by decide)
    (by decide)
  exact h.1

theorem fieldsAux_eq_nil_iff :
    ∀ (s cur : List Char),
      fieldsAux cur s = [] ↔ cur = [] ∧ ∀ c ∈ s, goIsSpace c = true := by
  intro s
  induction s with
  | nil =>
    intro cur
    cases cur with
    | nil => simp [fieldsAux]
    | cons a as => simp [fieldsAux]
  | cons c cs ih =>
    intro cur
    unfold fieldsAux
    by_cases hsp : goIsSpace c = true
    · rw [if_pos hsp]
      cases cur with
      | nil =>
        simp only [List.isEmpty_nil, if_pos]
        rw [ih []]
        simp [hsp]
      | cons a as =>
        simp [hsp]
    · rw [if_neg hsp]
      rw [ih (c :: cur)]
      simp [hsp]

/-- C10: `addModules` reads `args[0]` of `strings.Fields(spec)`
unconditionally; the access is in bounds exactly when the spec has a
non-white-space character, and an all-white-space (or empty) spec makes the
index-0 access out of bounds — a panic at the `Load` interface, modelled as
the `indexPanic` outcome. -/
theorem moduleSpec_first_token (spec : List Char) :
    ((∃ c ∈ spec, goIsSpace c = false) ↔ goFields spec ≠ []) ∧
    ((∀ c ∈ spec, goIsSpace c = true) →
      ∀ (fs : List Char → Option (List Nat)) (alloc : MemSt → Nat → Nat)
        (st : MemSt) (acc : List MBMod) (rest : List (List Char)),
        addModulesLoop fs alloc st acc (spec :: rest) =
          .error .indexPanic) := by
  have hiff := fieldsAux_eq_nil_iff spec []
  constructor
  · constructor
    · rintro ⟨c, hc, hcf⟩ hnil
      have := (hiff.mp hnil).2 c hc
      rw [hcf] at this
      exact Bool.noConfusion this
    · intro hne
      by_contra hall
      push_neg at hall
      apply hne
      apply hiff.mpr
      refine ⟨rfl, fun c hc => ?_⟩
      cases h : goIsSpace c
      · exact absurd h (hall c hc)
      · rfl
  · intro hall fs alloc st acc rest
    have hnil : goFields spec = [] := hiff.mpr ⟨rfl, hall⟩
    simp only [addModulesLoop, hnil]

theorem moduleSpec_first_token_witness :
    addModulesLoop (fun _ => none) (fun _ _ => 0) ⟨[]⟩ [] [[' ']] =
      .error .indexPanic ∧ goFields ['a'] ≠ [] :=
  ⟨(moduleSpec_first_token [' ']).2 (by decide) (fun _ => none)
    (fun _ _ => 0) ⟨[]⟩ [] [],
   (moduleSpec_first_token ['a']).1.mp (by decide)⟩

theorem loop_cons_panic (fs : List Char → Option (List Nat))
    (alloc : MemSt → Nat → Nat) (st : MemSt) (acc : List MBMod)
    (spec : List Char) (rest : List (List Char))
    (h : goFields spec = []) :
    addModulesLoop fs alloc st acc (spec :: rest) = .error .indexPanic := by
  simp only [addModulesLoop, h]

theorem loop_cons_step (fs : List Char → Option (List Nat))
    (alloc : MemSt → Nat → Nat) (st : MemSt) (acc : List MBMod)
    (spec name : List Char) (args rest : List (List Char))
    (h : goFields spec = name :: args) :
    addModulesLoop fs alloc st acc (spec :: rest) =
      match addModule fs alloc st name (charsToBytes (joinSpace args)) with
      | .error .emptyModule => addModulesLoop fs alloc st acc rest
      | .error e => .error e
      | .ok (mod, st') =>
        addModulesLoop fs alloc st' (acc ++ [mod]) rest := by
  simp only [addModulesLoop, h]

/-- C8: a module spec whose file reads back empty is skipped silently —
the loop behaves exactly as if the spec were absent, adding no segment and
no descriptor — while a spec whose file cannot be read fails the loop with
the read error. -/
theorem emptyModule_skipped (fs : List Char → Option (List Nat))
    (alloc : MemSt → Nat → Nat) (spec name : List Char)
    (args : List (List Char)) (hf : goFields spec = name :: args) :
    (fs name = some [] →
      ∀ (st : MemSt) (acc : List MBMod) (pre post : List (List Char)),
        addModulesLoop fs alloc st acc (pre ++ spec :: post) =
          addModulesLoop fs alloc st acc (pre ++ post)) ∧
    (fs name = none →
      ∀ (st : MemSt) (acc : List MBMod) (pre post : List (List Char)),
        (∃ res, addModulesLoop fs alloc st acc pre = .ok res) →
        addModulesLoop fs alloc st acc (pre ++ spec :: post) =
          .error .readFailed) := by
  constructor
  · intro hempty st acc pre post
    induction pre generalizing st acc with
    | nil =>
      simp only [List.nil_append]
      rw [loop_cons_step fs alloc st acc spec name args post hf]
      simp [addModule, hempty]
    | cons p ps ih =>
      simp only [List.cons_append]
      cases hfp : goFields p with
      | nil =>
        rw [loop_cons_panic fs alloc st acc p _ hfp,
          loop_cons_panic fs alloc st acc p _ hfp]
      | cons n' a' =>
        rw [loop_cons_step fs alloc st acc p n' a' _ hfp,
          loop_cons_step fs alloc st acc p n' a' _ hfp]
        cases hm : addModule fs alloc st n' (charsToBytes (joinSpace a')) with
        | error e =>
          cases e with
          | emptyModule => exact ih st acc
          | readFailed => rfl
          | indexPanic => rfl
        | ok v =>
          obtain ⟨mod, st'⟩ := v
          exact ih st' (acc ++ [mod])
  · intro hnone st acc pre post hok
    induction pre generalizing st acc with
    | nil =>
      simp only [List.nil_append]
      rw [loop_cons_step fs alloc st acc spec name args post hf]
      simp [addModule, hnone]
    | cons p ps ih =>
      obtain ⟨res, hres⟩ := hok
      simp only [List.cons_append]
      cases hfp : goFields p with
      | nil =>
        rw [loop_cons_panic fs alloc st acc p ps hfp] at hres
        exact absurd hres (by simp)
      | cons n' a' =>
        rw [loop_cons_step fs alloc st acc p n' a' ps hfp] at hres
        rw [loop_cons_step fs alloc st acc p n' a' _ hfp]
        cases hm : addModule fs alloc st n' (charsToBytes (joinSpace a')) with
        | error e =>
          rw [hm] at hres
          cases e with
          | emptyModule => exact ih st acc ⟨res, hres⟩
          | readFailed => exact absurd hres (by simp)
          | indexPanic => exact absurd hres (by simp)
        | ok v =>
          obtain ⟨mod, st'⟩ := v
          rw [hm] at hres
          exact ih st' (acc ++ [mod]) ⟨res, hres⟩

theorem emptyModule_skipped_witness :
    addModulesLoop (fun n => if n = ['b'] then some [] else none)
      (fun _ _ => 0) ⟨[]⟩ [] [['b']] =
      addModulesLoop (fun n => if n = ['b'] then some [] else none)
        (fun _ _ => 0) ⟨[]⟩ [] [] ∧
    addModulesLoop (fun n => if n = ['b'] then some [] else none)
      (fun _ _ => 0) ⟨[]⟩ [] [['c']] = .error .readFailed := by
  constructor
  · exact (emptyModule_skipped (fun n => if n = ['b'] then some [] else none)
      (fun _ _ => 0) ['b'] ['b'] [] (by decide)).1 (by decide) ⟨[]⟩ [] [] []
  · exact (emptyModule_skipped (fun n => if n = ['b'] then some [] else none)
      (fun _ _ => 0) ['c'] ['c'] [] (by decide)).2 (by decide) ⟨[]⟩ [] [] []
      ⟨([], ⟨[]⟩), rfl⟩

/-- A module spec survives the `addModules` loop (first token readable and
non-empty) and so contributes a descriptor. -/
def moduleKept (fs : List Char → Option (List Nat)) (spec : List Char) :
    Bool :=
  match goFields spec with
  | [] => false
  | name :: _ =>
    match fs name with
    | some data => decide (data.length ≠ 0)
    | none => false

theorem addModulesLoop_count (fs : List Char → Option (List Nat))
    (alloc : MemSt → Nat → Nat) :
    ∀ (specs : List (List Char)) (st : MemSt) (acc mods : List MBMod)
      (st1 : MemSt),
      addModulesLoop fs alloc st acc specs = .ok (mods, st1) →
      mods.length = acc.length + specs.countP (moduleKept fs) := by
  intro specs
  induction specs with
  | nil =>
    intro st acc mods st1 h
    simp only [addModulesLoop, Except.ok.injEq, Prod.mk.injEq] at h
    rw [← h.1]
    simp
  | cons spec rest ih =>
    intro st acc mods st1 h
    cases hfp : goFields spec with
    | nil =>
      rw [loop_cons_panic fs alloc st acc spec rest hfp] at h
      exact absurd h (by simp)
    | cons n a =>
      rw [loop_cons_step fs alloc st acc spec n a rest hfp] at h
      cases hfs : fs n with
      | none =>
        simp only [addModule, hfs] at h
        exact absurd h (by simp)
      | some data =>
        by_cases h0 : data.length = 0
        · simp only [addModule, hfs, if_pos h0] at h
          rw [ih st acc mods st1 h]
          have hk : moduleKept fs spec = false := by
            simp [moduleKept, hfp, hfs, h0]
          simp [List.countP_cons, hk]
        · simp only [addModule, hfs, if_neg h0] at h
          rw [ih _ _ mods st1 h]
          have hk : moduleKept fs spec = true := by
            simp [moduleKept, hfp, hfs, h0]
          simp [List.countP_cons, hk]
          omega

theorem marshalModsAux_length (base : Nat) :
    ∀ (mods : List MBMod) (cmd dat : List Nat),
      (marshalModsAux base mods cmd dat).1.length =
        cmd.length + (mods.map (fun m => m.cmdLine.length + 1)).sum ∧
      (marshalModsAux base mods cmd dat).2.length =
        dat.length + 16 * mods.length := by
  intro mods
  induction mods with
  | nil => intro cmd dat; simp [marshalModsAux]
  | cons m rest ih =>
    intro cmd dat
    simp only [marshalModsAux]
    refine ⟨?_, ?_⟩
    · rw [(ih _ _).1]
      simp [List.length_append]
      omega
    · rw [(ih _ _).2]
      simp [List.length_append, le32bytes]
      omega

/-- C9: on a successful module-loop run, `newMultibootInfo` sets
`ModsCount = uint32(len(m.modules))` — the number of spec strings — while
the number of descriptors equals the number of specs whose file is
non-empty; the marshalled table holds exactly 16 bytes per kept descriptor,
so a skipped (empty-file) spec makes `ModsCount` exceed the descriptor
count. -/
theorem modsCount_counts_specs (fs : List Char → Option (List Nat))
    (alloc : MemSt → Nat → Nat) (st : MemSt) (specs : List (List Char))
    (info : Info) (modAddr : Nat) (mods : List MBMod) (st1 : MemSt)
    (h : addModulesLoop fs alloc st [] specs = .ok (mods, st1))
    (hne : specs ≠ []) :
    (setModsInfo info specs modAddr).modsCount = specs.length % U32MOD ∧
    mods.length = specs.countP (moduleKept fs) ∧
    (marshalMods mods 0).length =
      (mods.map (fun m => m.cmdLine.length + 1)).sum + 16 * mods.length ∧
    (specs.length < U32MOD →
      (∃ spec ∈ specs, moduleKept fs spec = false) →
      mods.length < (setModsInfo info specs modAddr).modsCount) := by
  have hpos : 0 < specs.length := List.length_pos.mpr hne
  have hcount : mods.length = specs.countP (moduleKept fs) := by
    have := addModulesLoop_count fs alloc specs st [] mods st1 h
    simpa using this
  have hmc : (setModsInfo info specs modAddr).modsCount =
      specs.length % U32MOD := by
    simp [setModsInfo, hpos]
  refine ⟨hmc, hcount, ?_, ?_⟩
  · have hlen := marshalModsAux_length 0 mods [] []
    simp only [marshalMods, List.length_append, hlen.1, hlen.2,
      List.length_nil]
    omega
  · intro hlt ⟨spec, hmem, hkf⟩
    rw [hmc, Nat.mod_eq_of_lt hlt, hcount]
    have hle : specs.countP (moduleKept fs) ≤ specs.length :=
      List.countP_le_length _
    rcases Nat.lt_or_ge (specs.countP (moduleKept fs)) specs.length with
      hlt2 | hge
    · exact hlt2
    · have heq : specs.countP (moduleKept fs) = specs.length := by omega
      have := List.countP_eq_length.mp heq spec hmem
      rw [hkf] at this
      exact absurd this (by simp)

theorem modsCount_counts_specs_witness :
    (setModsInfo zeroInfo [['a'], ['b']] 0).modsCount = 2 ∧
      (1 : Nat) < (setModsInfo zeroInfo [['a'], ['b']] 0).modsCount := by
  have h := modsCount_counts_specs
    (fun n => if n = ['a'] then some [1, 2] else
      if n = ['b'] then some [] else none)
    (fun _ _ => 4096) ⟨[]⟩ [['a'], ['b']] zeroInfo 0
    [⟨4096, 4097, []⟩] ⟨[⟨4096, [1, 2]⟩]⟩ rfl (by decide)
  refine ⟨h.1, ?_⟩
  exact h.2.2.2 (by decide) ⟨['b'], by decide, by decide⟩

/-! ## Memory boundaries (`multiboot.go`) -/

/-- `kexec.RangeType` values used by the package. -/
inductive RangeType where
  | RAM
  | DefaultMem
  | NVACPI
  | ACPI
  | NVS
deriving DecidableEq

/-- A `kexec.PhysicalMemory` entry: a range plus its type. -/
structure TypedRange where
  start : Nat
  size : Nat
  typ : RangeType
deriving DecidableEq

/-- One iteration of `Multiboot.memoryBoundaries`: skip non-RAM ranges;
`end := uint32(r.Start) + uint32(r.Size)` (32-bit truncation!); raise
`lower` when `r.Start <= 640K && end > lower`, and `upper` when
`r.Start <= 1M && end > upper+M1` (to `end - M1`), all comparisons and the
subtraction in `uint32` arithmetic. -/
def mbStep (lu : Nat × Nat) (r : TypedRange) : Nat × Nat :=
  if r.typ ≠ RangeType.RAM then lu
  else
    ((if r.start ≤ 655360 ∧
          lu.1 < (r.start % U32MOD + r.size % U32MOD) % U32MOD then
        (r.start % U32MOD + r.size % U32MOD) % U32MOD
      else lu.1),
     (if r.start ≤ 1048576 ∧ (lu.2 + 1048576) % U32MOD <
          (r.start % U32MOD + r.size % U32MOD) % U32MOD then
        ((r.start % U32MOD + r.size % U32MOD) % U32MOD +
          (U32MOD - 1048576)) % U32MOD
      else lu.2))

/-- `Multiboot.memoryBoundaries`: fold `mbStep` over the physical map,
starting from `(0, 0)`. -/
def memoryBoundaries (phys : List TypedRange) : Nat × Nat :=
  phys.foldl mbStep (0, 0)

/-- Maximum of a list of naturals (0 for the empty list). -/
def listMax (l : List Nat) : Nat := l.foldr max 0

/-- The memory-info clause of `newMultibootInfo`: when the header's
`memoryInfo` flag is set, report the boundaries in KiB with the source's
(vacuous) saturation `min(x, 0xFFFFFFFF)` and record the memory-map segment;
otherwise the info stays zero. -/
def mkMemInfo (hdrFlags : Nat) (phys : List TypedRange)
    (mmapSize mmapAddr : Nat) : Info :=
  if hdrFlags &&& flagHeaderMemoryInfo ≠ 0 then
    { zeroInfo with
      flags := flagInfoMemMap ||| flagInfoMemory,
      memLower := min ((memoryBoundaries phys).1 >>> 10) 4294967295,
      memUpper := min ((memoryBoundaries phys).2 >>> 10) 4294967295,
      mmapLength := mmapSize % U32MOD,
      mmapAddr := mmapAddr % U32MOD }
  else zeroInfo

theorem listMax_cons (a : Nat) (l : List Nat) :
    listMax (a :: l) = max a (listMax l) := rfl

theorem mb_fold (phys : List TypedRange)
    (hb : ∀ r ∈ phys, r.typ = RangeType.RAM →
      r.start + r.size < U32MOD) :
    ∀ lo up, up + 1048576 < U32MOD →
      (phys.foldl mbStep (lo, up)).1 =
        max lo (listMax ((phys.filter (fun r =>
          r.typ = RangeType.RAM ∧ r.start ≤ 655360)).map
            (fun r => r.start + r.size))) ∧
      (phys.foldl mbStep (lo, up)).2 =
        max up (listMax ((phys.filter (fun r =>
          r.typ = RangeType.RAM ∧ r.start ≤ 1048576)).map
            (fun r => r.start + r.size - 1048576))) := by
  induction phys with
  | nil =>
    intro lo up _
    simp [listMax]
  | cons r rest ih =>
    intro lo up hup
    have hbrest : ∀ x ∈ rest, x.typ = RangeType.RAM →
        x.start + x.size < U32MOD :=
      fun x hx => hb x (List.mem_cons_of_mem _ hx)
    by_cases hRAM : r.typ = RangeType.RAM
    · have hbr : r.start + r.size < U32MOD :=
        hb r (List.mem_cons_self r rest) hRAM
      have he : (r.start % U32MOD + r.size % U32MOD) % U32MOD =
          r.start + r.size := by
        simp only [U32MOD] at hbr ⊢
        omega
      have hstep : mbStep (lo, up) r =
          (max lo (if r.start ≤ 655360 then r.start + r.size else 0),
           max up (if r.start ≤ 1048576 then r.start + r.size - 1048576
             else 0)) := by
        rw [mbStep, if_neg (by simp [hRAM])]
        simp only [he, Nat.mod_eq_of_lt hup]
        simp only [U32MOD] at hbr hup ⊢
        simp only [Prod.mk.injEq]
        constructor
        · split_ifs <;> omega
        · split_ifs <;> omega
      have hinv : max up (if r.start ≤ 1048576 then
          r.start + r.size - 1048576 else 0) + 1048576 < U32MOD := by
        simp only [U32MOD] at hbr hup ⊢
        split_ifs <;> omega
      rw [List.foldl_cons, hstep]
      have hrest := ih hbrest
        (max lo (if r.start ≤ 655360 then r.start + r.size else 0))
        (max up (if r.start ≤ 1048576 then r.start + r.size - 1048576
          else 0)) hinv
      constructor
      · rw [hrest.1]
        by_cases hK : r.start ≤ 655360
        · rw [List.filter_cons_of_pos (by simp [hRAM, hK]), List.map_cons,
            listMax_cons, if_pos hK, max_assoc]
        · rw [List.filter_cons_of_neg (by simp [hK]), if_neg hK,
            Nat.max_zero]
      · rw [hrest.2]
        by_cases hM : r.start ≤ 1048576
        · rw [List.filter_cons_of_pos (by simp [hRAM, hM]), List.map_cons,
            listMax_cons, if_pos hM, max_assoc]
        · rw [List.filter_cons_of_neg (by simp [hM]), if_neg hM,
            Nat.max_zero]
    · have hstep : mbStep (lo, up) r = (lo, up) := by
        rw [mbStep, if_pos (by simp [hRAM])]
      rw [List.foldl_cons, hstep,
        List.filter_cons_of_neg (by simp [hRAM]),
        List.filter_cons_of_neg (by simp [hRAM])]
      exact ih hbrest lo up hup

theorem listMax_le (l : List Nat) (b : Nat) (h : ∀ x ∈ l, x ≤ b) :
    listMax l ≤ b := by
  induction l with
  | nil => exact Nat.zero_le b
  | cons a t ih =>
    rw [listMax_cons]
    exact max_le (h a (List.mem_cons_self a t))
      (ih fun x hx => h x (List.mem_cons_of_mem _ hx))

/-- C6 (amended): when every RAM range's end `start + size` fits in 32 bits,
`memoryBoundaries` returns exactly the claimed maxima — `lower` the largest
end over RAM ranges starting at or below 640 KiB, `upper` the largest
`end - 1MiB` over RAM ranges starting at or below 1 MiB — and with the
header's `memoryInfo` flag set the produced info reports both divided by
1024 (the `min(·, 0xFFFFFFFF)` saturation being vacuous).  Without the
32-bit restriction the code truncates `end` modulo 2^32 (see the
counterexample). -/
theorem memoryBoundaries_spec (phys : List TypedRange)
    (hb : ∀ r ∈ phys, r.typ = RangeType.RAM →
      r.start + r.size < U32MOD) :
    (memoryBoundaries phys).1 = listMax ((phys.filter (fun r =>
        r.typ = RangeType.RAM ∧ r.start ≤ 655360)).map
          (fun r => r.start + r.size)) ∧
    (memoryBoundaries phys).2 = listMax ((phys.filter (fun r =>
        r.typ = RangeType.RAM ∧ r.start ≤ 1048576)).map
          (fun r => r.start + r.size - 1048576)) ∧
    ∀ hdrFlags mmapSize mmapAddr : Nat,
      hdrFlags &&& flagHeaderMemoryInfo ≠ 0 →
      (mkMemInfo hdrFlags phys mmapSize mmapAddr).memLower =
        listMax ((phys.filter (fun r =>
          r.typ = RangeType.RAM ∧ r.start ≤ 655360)).map
            (fun r => r.start + r.size)) / 1024 ∧
      (mkMemInfo hdrFlags phys mmapSize mmapAddr).memUpper =
        listMax ((phys.filter (fun r =>
          r.typ = RangeType.RAM ∧ r.start ≤ 1048576)).map
            (fun r => r.start + r.size - 1048576)) / 1024 := by
  have h := mb_fold phys hb 0 0 (by simp only [U32MOD]; omega)
  have h1 : (memoryBoundaries phys).1 = listMax ((phys.filter (fun r =>
      r.typ = RangeType.RAM ∧ r.start ≤ 655360)).map
        (fun r => r.start + r.size)) := by
    rw [memoryBoundaries, h.1, Nat.zero_max]
  have h2 : (memoryBoundaries phys).2 = listMax ((phys.filter (fun r =>
      r.typ = RangeType.RAM ∧ r.start ≤ 1048576)).map
        (fun r => r.start + r.size - 1048576)) := by
    rw [memoryBoundaries, h.2, Nat.zero_max]
  have hbound1 : listMax ((phys.filter (fun r =>
      r.typ = RangeType.RAM ∧ r.start ≤ 655360)).map
        (fun r => r.start + r.size)) ≤ 4294967295 := by
    apply listMax_le
    intro x hx
    obtain ⟨r, hr, hrx⟩ := List.mem_map.mp hx
    have hmem := List.mem_of_mem_filter hr
    have hpred := List.of_mem_filter hr
    simp only [decide_eq_true_eq] at hpred
    have := hb r hmem hpred.1
    simp only [U32MOD] at this
    omega
  have hbound2 : listMax ((phys.filter (fun r =>
      r.typ = RangeType.RAM ∧ r.start ≤ 1048576)).map
        (fun r => r.start + r.size - 1048576)) ≤ 4294967295 := by
    apply listMax_le
    intro x hx
    obtain ⟨r, hr, hrx⟩ := List.mem_map.mp hx
    have hmem := List.mem_of_mem_filter hr
    have hpred := List.of_mem_filter hr
    simp only [decide_eq_true_eq] at hpred
    have := hb r hmem hpred.1
    simp only [U32MOD] at this
    omega
  refine ⟨h1, h2, ?_⟩
  intro hdrFlags mmapSize mmapAddr hflag
  rw [mkMemInfo, if_pos hflag]
  constructor
  · show min ((memoryBoundaries phys).1 >>> 10) 4294967295 = _
    rw [h1, Nat.shiftRight_eq_div_pow,
      show (2 : Nat) ^ 10 = 1024 by norm_num, min_eq_left (by omega)]
  · show min ((memoryBoundaries phys).2 >>> 10) 4294967295 = _
    rw [h2, Nat.shiftRight_eq_div_pow,
      show (2 : Nat) ^ 10 = 1024 by norm_num, min_eq_left (by omega)]

/-- C6 counterexample: one RAM range `[0, 2^32 + 2^20)`.  The code computes
`end` as `uint32(start) + uint32(size)`, truncating to 2^20, and reports
`MemLower = 1024` KiB; the claim's formula — the true maximum end in KiB,
saturated at 2^32 - 1 — gives 4195328 KiB. -/
theorem memoryBoundaries_cex :
    (mkMemInfo 2 [⟨0, 4296015872, RangeType.RAM⟩] 0 0).memLower = 1024 ∧
      min ((0 + 4296015872) / 1024) 4294967295 = 4195328 ∧
      (1024 : Nat) ≠ 4195328 := by
  refine ⟨by decide, by norm_num, by norm_num⟩

theorem memoryBoundaries_spec_witness :
    (memoryBoundaries [⟨0, 655360, RangeType.RAM⟩,
        ⟨1048576, 1048576, RangeType.RAM⟩]).1 = 655360 ∧
      (mkMemInfo 2 [⟨0, 655360, RangeType.RAM⟩,
        ⟨1048576, 1048576, RangeType.RAM⟩] 0 0).memUpper = 1024 := by
  have h := memoryBoundaries_spec [⟨0, 655360, RangeType.RAM⟩,
    ⟨1048576, 1048576, RangeType.RAM⟩] (by decide)
  refine ⟨?_, ?_⟩
  · rw [h.1]
    decide
  · rw [(h.2.2 2 0 0 (by decide)).2]
    decide

/-! ## Range subtraction (`kexec.Memory.sub`) -/

/-- A bare `kexec.Range` (the hole ranges come from `Segment.Phys`). -/
structure SpecRange where
  start : Nat
  size : Nat
deriving DecidableEq

/-- Modelled from the spec: whether byte `b` is covered by any hole of `H`
(the `Memory.sub` implementation is not part of the provided sources; only
its test is). -/
def coveredB (H : List SpecRange) (b : Nat) : Bool :=
  H.any fun h => decide (h.start ≤ b ∧ b < h.start + h.size)

/-- Modelled from the spec: the maximal runs of bytes of `[s, s + n)` not
covered by any hole of `H`, in ascending order — the per-range core of
`Memory.sub`, whose implementation is absent from the sources. -/
def gapsIn (H : List SpecRange) : Nat → Nat → List SpecRange
  | _, 0 => []
  | s, n + 1 =>
    if coveredB H s then gapsIn H (s + 1) n
    else
      match gapsIn H (s + 1) n with
      | [] => [⟨s, 1⟩]
      | g :: gs =>
        if g.start = s + 1 then ⟨s, g.size + 1⟩ :: gs
        else ⟨s, 1⟩ :: g :: gs

/-- Modelled from the spec: `subtract(universe, holes)` (`Memory.sub`,
absent from the provided sources, which hold only its test
`TestMemorySub`): for each universe range in order, the gaps left after
removing every byte covered by a hole, each gap tagged with the range's
type. -/
def memSub (U : List TypedRange) (H : List SpecRange) : List TypedRange :=
  U.flatMap fun r =>
    (gapsIn H r.start r.size).map fun g => ⟨g.start, g.size, r.typ⟩

theorem coveredB_true_iff (H : List SpecRange) (b : Nat) :
    coveredB H b = true ↔ ∃ h ∈ H, h.start ≤ b ∧ b < h.start + h.size := by
  simp [coveredB]

theorem coveredB_false_iff (H : List SpecRange) (b : Nat) :
    coveredB H b = false ↔
      ¬∃ h ∈ H, h.start ≤ b ∧ b < h.start + h.size := by
  rw [← coveredB_true_iff]
  cases coveredB H b <;> simp

theorem gapsIn_zero (H : List SpecRange) (s : Nat) : gapsIn H s 0 = [] := rfl

theorem gapsIn_succ_covered (H : List SpecRange) (s n : Nat)
    (h : coveredB H s = true) :
    gapsIn H s (n + 1) = gapsIn H (s + 1) n := by
  simp [gapsIn, h]

theorem gapsIn_succ_free (H : List SpecRange) (s n : Nat)
    (h : coveredB H s = false) :
    gapsIn H s (n + 1) =
      match gapsIn H (s + 1) n with
      | [] => [⟨s, 1⟩]
      | g :: gs =>
        if g.start = s + 1 then ⟨s, g.size + 1⟩ :: gs
        else ⟨s, 1⟩ :: g :: gs := by
  simp [gapsIn, h]

theorem gapsIn_succ_free_nil (H : List SpecRange) (s n : Nat)
    (h : coveredB H s = false) (hg : gapsIn H (s + 1) n = []) :
    gapsIn H s (n + 1) = [⟨s, 1⟩] := by
  rw [gapsIn_succ_free H s n h, hg]

theorem gapsIn_succ_free_cons (H : List SpecRange) (s n : Nat)
    (g : SpecRange) (gs : List SpecRange)
    (h : coveredB H s = false) (hg : gapsIn H (s + 1) n = g :: gs) :
    gapsIn H s (n + 1) =
      if g.start = s + 1 then ⟨s, g.size + 1⟩ :: gs
      else ⟨s, 1⟩ :: g :: gs := by
  rw [gapsIn_succ_free H s n h, hg]

theorem mem_gapsIn (H : List SpecRange) :
    ∀ (n s b : Nat),
      (∃ g ∈ gapsIn H s n, g.start ≤ b ∧ b < g.start + g.size) ↔
        (s ≤ b ∧ b < s + n ∧ coveredB H b = false) := by
  intro n
  induction n with
  | zero =>
    intro s b
    rw [gapsIn_zero]
    constructor
    · rintro ⟨g, hg, _⟩
      exact absurd hg (List.not_mem_nil g)
    · rintro ⟨h1, h2, _⟩
      exact absurd h2 (by omega)
  | succ n ih =>
    intro s b
    by_cases hc : coveredB H s = true
    · rw [gapsIn_succ_covered H s n hc, ih (s + 1) b]
      constructor
      · rintro ⟨h1, h2, h3⟩
        exact ⟨by omega, by omega, h3⟩
      · rintro ⟨h1, h2, h3⟩
        have hbs : b ≠ s := by
          intro he
          rw [he, hc] at h3
          exact Bool.noConfusion h3
        exact ⟨by omega, by omega, h3⟩
    · have hcf : coveredB H s = false := by
        revert hc
        cases coveredB H s <;> simp
      have hih := ih (s + 1) b
      cases hg : gapsIn H (s + 1) n with
      | nil =>
        rw [gapsIn_succ_free_nil H s n hcf hg]
        rw [hg] at hih
        have hno : ¬(s + 1 ≤ b ∧ b < s + 1 + n ∧ coveredB H b = false) := by
          rw [← hih]
          rintro ⟨g, hgm, _⟩
          exact absurd hgm (List.not_mem_nil g)
        constructor
        · rintro ⟨g, hgm, hb1, hb2⟩
          rw [List.mem_singleton] at hgm
          subst hgm
          have hb1' : s ≤ b := hb1
          have hb2' : b < s + 1 := hb2
          refine ⟨by omega, by omega, ?_⟩
          rw [show b = s by omega]
          exact hcf
        · rintro ⟨h1, h2, h3⟩
          by_cases hbs : b = s
          · refine ⟨⟨s, 1⟩, List.mem_singleton_self _, ?_, ?_⟩
            · show s ≤ b
              omega
            · show b < s + 1
              omega
          · exact absurd ⟨by omega, by omega, h3⟩ hno
      | cons g gs =>
        rw [gapsIn_succ_free_cons H s n g gs hcf hg]
        rw [hg] at hih
        by_cases hgs : g.start = s + 1
        · rw [if_pos hgs]
          constructor
          · rintro ⟨x, hx, hb1, hb2⟩
            rcases List.mem_cons.mp hx with hx1 | hx2
            · subst hx1
              have hb1' : s ≤ b := hb1
              have hb2' : b < s + (g.size + 1) := hb2
              by_cases hbs : b = s
              · refine ⟨by omega, by omega, ?_⟩
                rw [hbs]
                exact hcf
              · have hmem := hih.mp ⟨g, List.mem_cons_self g gs,
                  by omega, by omega⟩
                exact ⟨by omega, by omega, hmem.2.2⟩
            · have hmem := hih.mp ⟨x, List.mem_cons_of_mem g hx2, hb1, hb2⟩
              exact ⟨by omega, by omega, hmem.2.2⟩
          · rintro ⟨h1, h2, h3⟩
            by_cases hbs : b = s
            · refine ⟨⟨s, g.size + 1⟩, List.mem_cons_self _ _, ?_, ?_⟩
              · show s ≤ b
                omega
              · show b < s + (g.size + 1)
                omega
            · have hmem := hih.mpr ⟨by omega, by omega, h3⟩
              obtain ⟨x, hx, hxb1, hxb2⟩ := hmem
              rcases List.mem_cons.mp hx with hx1 | hx2
              · subst hx1
                refine ⟨⟨s, x.size + 1⟩, List.mem_cons_self _ _, ?_, ?_⟩
                · show s ≤ b
                  omega
                · show b < s + (x.size + 1)
                  omega
              · exact ⟨x, List.mem_cons_of_mem _ hx2, hxb1, hxb2⟩
        · rw [if_neg hgs]
          constructor
          · rintro ⟨x, hx, hb1, hb2⟩
            rcases List.mem_cons.mp hx with hx1 | hx2
            · subst hx1
              have hb1' : s ≤ b := hb1
              have hb2' : b < s + 1 := hb2
              refine ⟨by omega, by omega, ?_⟩
              rw [show b = s by omega]
              exact hcf
            · have hmem := hih.mp ⟨x, hx2, hb1, hb2⟩
              exact ⟨by omega, by omega, hmem.2.2⟩
          · rintro ⟨h1, h2, h3⟩
            by_cases hbs : b = s
            · refine ⟨⟨s, 1⟩, List.mem_cons_self _ _, ?_, ?_⟩
              · show s ≤ b
                omega
              · show b < s + 1
                omega
            · have hmem := hih.mpr ⟨by omega, by omega, h3⟩
              obtain ⟨x, hx, hxb1, hxb2⟩ := hmem
              exact ⟨x, List.mem_cons_of_mem _ hx, hxb1, hxb2⟩

theorem gapsIn_props (H : List SpecRange) :
    ∀ n s, (∀ g ∈ gapsIn H s n,
        0 < g.size ∧ s ≤ g.start ∧ g.start + g.size ≤ s + n) ∧
      List.Pairwise (fun a b => a.start + a.size ≤ b.start)
        (gapsIn H s n) := by
  intro n
  induction n with
  | zero =>
    intro s
    rw [gapsIn_zero]
    exact ⟨fun g hg => absurd hg (List.not_mem_nil g), List.Pairwise.nil⟩
  | succ n ih =>
    intro s
    by_cases hc : coveredB H s = true
    · rw [gapsIn_succ_covered H s n hc]
      obtain ⟨hb, hp⟩ := ih (s + 1)
      refine ⟨fun g hg => ?_, hp⟩
      obtain ⟨h1, h2, h3⟩ := hb g hg
      exact ⟨h1, by omega, by omega⟩
    · have hcf : coveredB H s = false := by
        revert hc
        cases coveredB H s <;> simp
      obtain ⟨hb, hp⟩ := ih (s + 1)
      cases hg : gapsIn H (s + 1) n with
      | nil =>
        rw [gapsIn_succ_free_nil H s n hcf hg]
        refine ⟨fun g hgm => ?_, List.pairwise_singleton _ _⟩
        rw [List.mem_singleton] at hgm
        subst hgm
        refine ⟨?_, ?_, ?_⟩
        · show (0 : Nat) < 1
          omega
        · show s ≤ s
          omega
        · show s + 1 ≤ s + (n + 1)
          omega
      | cons g gs =>
        rw [gapsIn_succ_free_cons H s n g gs hcf hg]
        rw [hg] at hb hp
        obtain ⟨hg1, hg2, hg3⟩ := hb g (List.mem_cons_self g gs)
        rw [List.pairwise_cons] at hp
        by_cases hgs : g.start = s + 1
        · rw [if_pos hgs]
          constructor
          · intro x hx
            rcases List.mem_cons.mp hx with hx1 | hx2
            · subst hx1
              refine ⟨?_, ?_, ?_⟩
              · show 0 < g.size + 1
                omega
              · show s ≤ s
                omega
              · show s + (g.size + 1) ≤ s + (n + 1)
                omega
            · obtain ⟨h1, h2, h3⟩ := hb x (List.mem_cons_of_mem g hx2)
              exact ⟨h1, by omega, by omega⟩
          · rw [List.pairwise_cons]
            refine ⟨fun x hx => ?_, hp.2⟩
            have hr := hp.1 x hx
            show s + (g.size + 1) ≤ x.start
            omega
        · rw [if_neg hgs]
          constructor
          · intro x hx
            rcases List.mem_cons.mp hx with hx1 | hx2
            · subst hx1
              refine ⟨?_, ?_, ?_⟩
              · show (0 : Nat) < 1
                omega
              · show s ≤ s
                omega
              · show s + 1 ≤ s + (n + 1)
                omega
            · obtain ⟨h1, h2, h3⟩ := hb x hx2
              exact ⟨h1, by omega, by omega⟩
          · rw [List.pairwise_cons]
            constructor
            · intro x hx
              show s + 1 ≤ x.start
              rcases List.mem_cons.mp hx with hx1 | hx2
              · subst hx1
                omega
              · obtain ⟨h1, h2, h3⟩ := hb x (List.mem_cons_of_mem g hx2)
                omega
            · rw [List.pairwise_cons]
              exact ⟨hp.1, hp.2⟩

theorem gapsIn_nil_holes :
    ∀ n s, 0 < n → gapsIn ([] : List SpecRange) s n = [⟨s, n⟩] := by
  intro n
  induction n with
  | zero => intro s h; omega
  | succ n ih =>
    intro s _
    have hcf : coveredB [] s = false := rfl
    rcases Nat.eq_zero_or_pos n with h0 | hpos
    · subst h0
      rw [gapsIn_succ_free_nil [] s 0 hcf rfl]
    · have hg : gapsIn [] (s + 1) n = [⟨s + 1, n⟩] := ih (s + 1) hpos
      rw [gapsIn_succ_free_cons [] s n ⟨s + 1, n⟩ [] hcf hg, if_pos rfl]

theorem memSub_nil_holes (U : List TypedRange)
    (hpos : ∀ r ∈ U, 0 < r.size) : memSub U [] = U := by
  induction U with
  | nil => rfl
  | cons r rest ih =>
    rw [memSub, List.flatMap_cons,
      gapsIn_nil_holes r.size r.start (hpos r (List.mem_cons_self r rest)),
      List.map_cons, List.map_nil]
    have hrest : (rest.flatMap fun r =>
        (gapsIn [] r.start r.size).map fun g =>
          (⟨g.start, g.size, r.typ⟩ : TypedRange)) = rest :=
      ih fun x hx => hpos x (List.mem_cons_of_mem _ hx)
    rw [hrest]
    rfl

theorem memSub_source (U : List TypedRange) (H : List SpecRange) :
    ∀ g ∈ memSub U H, ∃ r ∈ U, g.typ = r.typ ∧ r.start ≤ g.start ∧
      g.start + g.size ≤ r.start + r.size := by
  intro g hgm
  rw [memSub, List.mem_flatMap] at hgm
  obtain ⟨r, hr, hgm2⟩ := hgm
  rw [List.mem_map] at hgm2
  obtain ⟨g0, hg0, rfl⟩ := hgm2
  have hprops := (gapsIn_props H r.size r.start).1 g0 hg0
  exact ⟨r, hr, rfl, hprops.2.1, hprops.2.2⟩

theorem memSub_pairwise (U : List TypedRange) (H : List SpecRange)
    (hU : List.Pairwise (fun a b => a.start + a.size ≤ b.start) U) :
    List.Pairwise (fun a b => a.start + a.size ≤ b.start) (memSub U H) := by
  induction U with
  | nil => exact List.Pairwise.nil
  | cons r rest ih =>
    rw [List.pairwise_cons] at hU
    rw [memSub, List.flatMap_cons]
    apply List.pairwise_append.mpr
    refine ⟨?_, ih hU.2, ?_⟩
    · exact List.pairwise_map.mpr ((gapsIn_props H r.size r.start).2)
    · intro x hx y hy
      rw [List.mem_map] at hx
      obtain ⟨g0, hg0, rfl⟩ := hx
      have hx' := (gapsIn_props H r.size r.start).1 g0 hg0
      obtain ⟨r', hr', _, hys, _⟩ := memSub_source rest H y hy
      have hRr' := hU.1 r' hr'
      show g0.start + g0.size ≤ y.start
      omega

/-- C7: the range subtraction `subtract(universe, holes)` (modelled from
the spec; `Memory.sub` itself is absent from the sources): a byte lies in
the output iff it lies in some universe range and in no hole; every output
range has positive size and inherits the type tag of a containing universe
range; an empty hole set returns the universe unchanged (its ranges having
positive size, per the data-model invariant); and the output preserves the
universe's order. -/
theorem memSub_spec (U : List TypedRange) (H : List SpecRange) :
    (∀ b : Nat,
      (∃ g ∈ memSub U H, g.start ≤ b ∧ b < g.start + g.size) ↔
        ((∃ r ∈ U, r.start ≤ b ∧ b < r.start + r.size) ∧
          ¬∃ h ∈ H, h.start ≤ b ∧ b < h.start + h.size)) ∧
    (∀ g ∈ memSub U H, 0 < g.size) ∧
    (∀ g ∈ memSub U H, ∃ r ∈ U, g.typ = r.typ ∧ r.start ≤ g.start ∧
      g.start + g.size ≤ r.start + r.size) ∧
    ((∀ r ∈ U, 0 < r.size) → memSub U [] = U) ∧
    (List.Pairwise (fun a b => a.start + a.size ≤ b.start) U →
      List.Pairwise (fun a b => a.start + a.size ≤ b.start) (memSub U H)) := by
  refine ⟨?_, ?_, memSub_source U H, memSub_nil_holes U,
    memSub_pairwise U H⟩
  · intro b
    constructor
    · rintro ⟨g, hgm, hb1, hb2⟩
      rw [memSub, List.mem_flatMap] at hgm
      obtain ⟨r, hr, hgm2⟩ := hgm
      rw [List.mem_map] at hgm2
      obtain ⟨g0, hg0, rfl⟩ := hgm2
      have hmem := (mem_gapsIn H r.size r.start b).mp ⟨g0, hg0, hb1, hb2⟩
      exact ⟨⟨r, hr, hmem.1, hmem.2.1⟩,
        (coveredB_false_iff H b).mp hmem.2.2⟩
    · rintro ⟨⟨r, hr, hr1, hr2⟩, hnc⟩
      have hcov : coveredB H b = false := (coveredB_false_iff H b).mpr hnc
      obtain ⟨g0, hg0, hb1, hb2⟩ :=
        (mem_gapsIn H r.size r.start b).mpr ⟨hr1, hr2, hcov⟩
      refine ⟨⟨g0.start, g0.size, r.typ⟩, ?_, hb1, hb2⟩
      rw [memSub, List.mem_flatMap]
      exact ⟨r, hr, List.mem_map.mpr ⟨g0, hg0, rfl⟩⟩
  · intro g hgm
    rw [memSub, List.mem_flatMap] at hgm
    obtain ⟨r, hr, hgm2⟩ := hgm
    rw [List.mem_map] at hgm2
    obtain ⟨g0, hg0, rfl⟩ := hgm2
    exact ((gapsIn_props H r.size r.start).1 g0 hg0).1

/-- The universe of the repository's `TestMemorySub`. -/
def mbTestUniverse : List TypedRange :=
  [⟨0, 100, RangeType.RAM⟩, ⟨200, 100, RangeType.RAM⟩,
   ⟨400, 100, RangeType.RAM⟩, ⟨600, 100, RangeType.RAM⟩]

/-- The holes of the repository's `TestMemorySub`. -/
def mbTestHoles : List SpecRange :=
  [⟨0, 50⟩, ⟨100, 100⟩, ⟨250, 50⟩, ⟨410, 80⟩, ⟨599, 102⟩]

theorem memSub_spec_witness :
    (∃ g ∈ memSub mbTestUniverse mbTestHoles,
      g.start ≤ 75 ∧ 75 < g.start + g.size) ∧
    memSub mbTestUniverse [] = mbTestUniverse ∧
    List.Pairwise (fun a b => a.start + a.size ≤ b.start)
      (memSub mbTestUniverse mbTestHoles) ∧
    memSub mbTestUniverse mbTestHoles =
      [⟨50, 50, RangeType.RAM⟩, ⟨200, 50, RangeType.RAM⟩,
       ⟨400, 10, RangeType.RAM⟩, ⟨490, 10, RangeType.RAM⟩] := by
  have h := memSub_spec mbTestUniverse mbTestHoles
  have h2 := memSub_spec mbTestUniverse []
  exact ⟨(h.1 75).mpr (by decide), h2.2.2.2.1 (by decide),
    h.2.2.2.2 (by decide), by decide⟩
